import Mathlib

/-!
# Verification of the ESP32 audio serial tool's framing protocol

Shallow embedding of `src/tools/audio_tool.py` (class `AudioSerialTool`).
Byte sequences are modelled as `List Nat` whose elements are below 256;
theorems carry that range as an explicit hypothesis where it matters.

Embedded pieces:
* `calc_checksum`  — `AudioSerialTool.calc_checksum` (XOR fold, lines 100-105)
* `send_frame`     — the frame bytes built by `AudioSerialTool.send_frame`
                     (lines 107-118); the serial write itself is external I/O
* `find_header`    — `buffer.find(FRAME_HEADER)` (line 123)
* `parse_frame`    — `AudioSerialTool.parse_frame` (lines 120-150)
* `drain`          — the inner `while True` loop of `rx_loop` (lines 162-170),
                     fuel-indexed; the dispatched frames are its first component
* `chunks` / `play_frames` — the chunking and frame sequence of
                     `play_audio` (lines 310-327)
* `accumulate` / `finish_record` — the audio-data accumulation of
                     `handle_frame` (lines 179-181) and the save/no-data
                     decision at the end of `start_record` (lines 220-224)
-/

set_option maxHeartbeats 1000000

/-- Command codes (lines 41-48 of the source). -/
def CMD_START_RECORD : Nat := 0x01
def CMD_STOP_RECORD : Nat := 0x02
def CMD_AUDIO_DATA : Nat := 0x03
def CMD_START_PLAY : Nat := 0x04
def CMD_STOP_PLAY : Nat := 0x05
def CMD_HANDSHAKE : Nat := 0x06
def CMD_ACK : Nat := 0x07
def CMD_SET_FORMAT : Nat := 0x08

/-- Audio format tags (lines 51-52). -/
def AUDIO_FORMAT_PCM : Nat := 0x00
def AUDIO_FORMAT_MP3 : Nat := 0x01

/-- Fixed audio parameters (lines 55-57). -/
def SAMPLE_RATE : Nat := 8000
def BITS_PER_SAMPLE : Nat := 16
def CHANNELS : Nat := 1

/-- `FRAME_HEADER = bytes([0xAA, 0x55])` (line 60). -/
def FRAME_HEADER : List Nat := [0xAA, 0x55]

/-- `AudioSerialTool.calc_checksum`: `checksum = 0; for b in data: checksum ^= b`. -/
def calc_checksum (data : List Nat) : Nat :=
  data.foldl (fun a b => a ^^^ b) 0

/-- The frame bytes written by `AudioSerialTool.send_frame`:
`struct.pack('<2sBH', FRAME_HEADER, cmd, len(data))` is
`0xAA 0x55 cmd lo hi` with the length little-endian, then the payload, then
the XOR checksum of `header[2:] + data`. -/
def send_frame (cmd : Nat) (data : List Nat) : List Nat :=
  let length := data.length
  let header : List Nat := [0xAA, 0x55, cmd, length % 256, length / 256 % 256]
  let checksum := calc_checksum (header.drop 2 ++ data)
  header ++ data ++ [checksum]

/-- `buffer.find(FRAME_HEADER)`: index of the first occurrence of the two-byte
marker `0xAA 0x55`, `none` when absent (Python returns `-1`). -/
def find_header : List Nat → Option Nat
  | [] => none
  | [_] => none
  | a :: b :: rest =>
    if a = 0xAA ∧ b = 0x55 then some 0
    else (find_header (b :: rest)).map (· + 1)

/-- `AudioSerialTool.parse_frame` (lines 120-150): returns the optional decoded
`(cmd, data)` pair and the remaining buffer. -/
def parse_frame (buffer : List Nat) : Option (Nat × List Nat) × List Nat :=
  match find_header buffer with
  | none => (none, buffer.drop (buffer.length - 1))
  | some idx =>
    let buf := buffer.drop idx
    if buf.length < 6 then
      (none, buf)
    else
      let cmd := buf.getD 2 0
      let length := buf.getD 3 0 + 256 * buf.getD 4 0
      if buf.length < 5 + length + 1 then
        (none, buf)
      else
        let data := (buf.drop 5).take length
        let checksum := buf.getD (5 + length) 0
        let expected := calc_checksum ((buf.drop 2).take (3 + length))
        if checksum ≠ expected then
          (none, buf.drop 2)
        else
          (some (cmd, data), buf.drop (5 + length + 1))

/-- The inner `while True` drain loop of `AudioSerialTool.rx_loop`
(lines 162-170), fuel-indexed: repeatedly calls `parse_frame`, collecting the
dispatched frames, until it reports no frame (or the fuel runs out). -/
def drain (fuel : Nat) (buffer : List Nat) : List (Nat × List Nat) × List Nat :=
  match fuel with
  | 0 => ([], buffer)
  | f + 1 =>
    match parse_frame buffer with
    | (none, rest) => ([], rest)
    | (some fr, rest) =>
      let r := drain f rest
      (fr :: r.1, r.2)

/-- The chunk split of `play_audio` (line 316):
`for i in range(0, len(frames), chunk_size): chunk = frames[i:i+chunk_size]`.
Faithful for every positive chunk size (the source uses 512 or 1024). -/
def chunks (size : Nat) : List Nat → List (List Nat)
  | [] => []
  | b :: bs => ((b :: bs).take size) :: chunks size (bs.drop (size - 1))
termination_by bs => bs.length
decreasing_by simp [List.length_drop]; omega

/-- The frame sequence sent by `AudioSerialTool.play_audio` (lines 301-327):
set-format, start-play, one audio-data frame per chunk, stop-play. -/
def play_frames (audio_format : Nat) (frames : List Nat) : List (Nat × List Nat) :=
  let chunk_size := if audio_format = AUDIO_FORMAT_MP3 then 1024 else 512
  (CMD_SET_FORMAT, [audio_format]) :: (CMD_START_PLAY, []) ::
    ((chunks chunk_size frames).map (fun c => (CMD_AUDIO_DATA, c)) ++
      [(CMD_STOP_PLAY, [])])

/-- The audio accumulator built by `handle_frame` (lines 179-181): payloads of
audio-data frames are appended, every other command leaves it unchanged. -/
def accumulate (frames : List (Nat × List Nat)) : List Nat :=
  frames.foldl (fun acc f => if f.1 = CMD_AUDIO_DATA then acc ++ f.2 else acc) []

/-- Outcome of finishing a record operation: either the WAV writer is invoked
with (sample rate, bits per sample, channels, data), or "no data" is
reported. -/
inductive RecordOutcome where
  | saved (sample_rate : Nat) (bits_per_sample : Nat) (channels : Nat)
      (data : List Nat) : RecordOutcome
  | noData : RecordOutcome
deriving DecidableEq

/-- The end of `AudioSerialTool.start_record` (lines 220-224) together with
`save_wav` (lines 226-232): if the accumulator is non-empty it is handed to
the WAV writer with the fixed parameters, otherwise "no data" is reported. -/
def finish_record (audio_data : List Nat) : RecordOutcome :=
  if audio_data ≠ [] then
    RecordOutcome.saved SAMPLE_RATE BITS_PER_SAMPLE CHANNELS audio_data
  else
    RecordOutcome.noData

/-- Single-bit flip of byte `i` of a byte sequence (identity out of range). -/
def flipBit (bs : List Nat) (i k : Nat) : List Nat :=
  bs.set i (bs.getD i 0 ^^^ 2 ^ k)

/-- The checksum the receiver computes for a full frame: XOR over everything
after the header, excluding the trailing checksum byte (line 145). -/
def computedChecksum (f : List Nat) : Nat :=
  calc_checksum ((f.drop 2).dropLast)

/-- Modelled from the spec: "`checksum(bytes) -> byte`: XOR-fold over the
given byte sequence" — stated as a right fold, to be compared with the
source's left-fold loop. -/
def xor_fold (l : List Nat) : Nat :=
  l.foldr (fun a b => a ^^^ b) 0

/-! ## Helper lemmas about `calc_checksum` -/

theorem foldl_xor_eq (x : Nat) (l : List Nat) :
    l.foldl (fun a b => a ^^^ b) x = x ^^^ l.foldl (fun a b => a ^^^ b) 0 := by
  induction l generalizing x with
  | nil => simp
  | cons b t ih =>
    simp only [List.foldl_cons]
    rw [ih (x ^^^ b), ih (0 ^^^ b)]
    simp [Nat.xor_assoc]

theorem calc_checksum_nil : calc_checksum [] = 0 := rfl

theorem calc_checksum_cons (a : Nat) (l : List Nat) :
    calc_checksum (a :: l) = a ^^^ calc_checksum l := by
  simp only [calc_checksum, List.foldl_cons]
  rw [foldl_xor_eq]
  simp

theorem calc_checksum_append (l₁ l₂ : List Nat) :
    calc_checksum (l₁ ++ l₂) = calc_checksum l₁ ^^^ calc_checksum l₂ := by
  induction l₁ with
  | nil => simp [calc_checksum_nil]
  | cons a t ih =>
    simp [calc_checksum_cons, ih, Nat.xor_assoc]

theorem calc_checksum_set (l : List Nat) (n x : Nat) (h : n < l.length) :
    calc_checksum (l.set n (l.getD n 0 ^^^ x)) = calc_checksum l ^^^ x := by
  induction l generalizing n with
  | nil => simp at h
  | cons a t ih =>
    cases n with
    | zero =>
      simp only [List.getD_cons_zero, List.set]
      rw [calc_checksum_cons, calc_checksum_cons]
      rw [Nat.xor_assoc, Nat.xor_comm x (calc_checksum t), ← Nat.xor_assoc]
    | succ m =>
      simp only [List.getD_cons_succ, List.set]
      rw [calc_checksum_cons, calc_checksum_cons, ih m (by simpa using h)]
      rw [Nat.xor_assoc]

theorem calc_checksum_lt (l : List Nat) (h : ∀ b ∈ l, b < 256) :
    calc_checksum l < 256 := by
  induction l with
  | nil => simp [calc_checksum_nil]
  | cons a t ih =>
    rw [calc_checksum_cons]
    have ha : a < 2 ^ 8 := by simpa using h a (by simp)
    have ht : calc_checksum t < 2 ^ 8 := by
      simpa using ih (fun b hb => h b (by simp [hb]))
    simpa using Nat.xor_lt_two_pow ha ht

theorem calc_checksum_eq_foldr (l : List Nat) :
    calc_checksum l = xor_fold l := by
  induction l with
  | nil => rfl
  | cons a t ih => rw [calc_checksum_cons, xor_fold, List.foldr_cons, ← xor_fold, ih]

/-! ## Claim theorems: C4, C9, C3 -/

/-- C4: Encoding the handshake command 0x06 with an empty payload produces
exactly the bytes `AA 55 06 00 00 06`, and encoding the audio-data command
0x03 with payload `[0x10, 0x20]` produces exactly `AA 55 03 02 00 10 20 31`,
with the length field little-endian. -/
theorem c4_concrete_encodings :
    send_frame 0x06 [] = [0xAA, 0x55, 0x06, 0x00, 0x00, 0x06] ∧
    send_frame 0x03 [0x10, 0x20] = [0xAA, 0x55, 0x03, 0x02, 0x00, 0x10, 0x20, 0x31] := by
  decide

/-- C9: `calc_checksum` equals the XOR-fold of its input byte sequence for
every input length, always yields a value in 0..255 (for byte inputs), and
returns 0 for the empty sequence. -/
theorem c9_checksum_spec (data : List Nat) :
    calc_checksum data = xor_fold data ∧
    ((∀ b ∈ data, b < 256) → calc_checksum data < 256) ∧
    calc_checksum [] = 0 :=
  ⟨calc_checksum_eq_foldr data, fun h => calc_checksum_lt data h, rfl⟩

theorem c9_checksum_spec_witness :
    calc_checksum [1, 2, 3] = xor_fold [1, 2, 3] ∧
    calc_checksum [1, 2, 3] < 256 ∧
    calc_checksum [] = 0 :=
  ⟨(c9_checksum_spec [1, 2, 3]).1,
   (c9_checksum_spec [1, 2, 3]).2.1 (by decide),
   (c9_checksum_spec [1, 2, 3]).2.2⟩

/-- C3 counterexample: the claim says flipping ANY single bit of the frame
other than the checksum byte changes the computed checksum.  Byte 0 is part
of the frame (the first header byte) and is not the checksum byte, yet
flipping its bit 0 leaves the computed checksum unchanged, because the
checksum only covers command, length bytes and payload (line 145 computes it
over `buffer[2:5+length]`). -/
theorem c3_counterexample_header_flip :
    computedChecksum (flipBit (send_frame 0x06 []) 0 0) =
      computedChecksum (send_frame 0x06 []) := by
  decide

/-- C3 amended: flipping any single bit of a byte in the checksum-covered
region of an encoded frame — command, length bytes or payload, i.e. byte
positions `2 ≤ i < 5 + len(P)`, excluding the header and the checksum byte —
changes the computed checksum; and XOR-folding any byte sequence concatenated
with itself yields 0 (the checksum is self-inverse). -/
theorem c3_checksum_sensitivity (cmd : Nat) (P : List Nat) (i k : Nat)
    (h2 : 2 ≤ i) (h5 : i < 5 + P.length) :
    computedChecksum (flipBit (send_frame cmd P) i k) ≠
      computedChecksum (send_frame cmd P) ∧
    ∀ s : List Nat, calc_checksum (s ++ s) = 0 := by
  constructor
  · -- the frame is [0xAA, 0x55] ++ M ++ [chk] with M the checksummed region
    set L := P.length with hL
    set M : List Nat := [cmd, L % 256, L / 256 % 256] ++ P with hM
    have hMlen : M.length = 3 + L := by simp [hM]; omega
    set chk := calc_checksum (M) with hchk
    have hframe : send_frame cmd P = [0xAA, 0x55] ++ (M ++ [chk]) := by
      simp [send_frame, hM, hchk, hL]
    obtain ⟨j, rfl⟩ : ∃ j, i = 2 + j := ⟨i - 2, by omega⟩
    have hjM : j < M.length := by omega
    have hget : (send_frame cmd P).getD (2 + j) 0 = M.getD j 0 := by
      rw [hframe]
      have : ([0xAA, 0x55] ++ (M ++ [chk])).getD (2 + j) 0 =
          (M ++ [chk]).getD j 0 := by
        simp [List.getD_cons_succ, Nat.add_comm 2 j]
      rw [this, List.getD_append _ _ _ _ hjM]
    have hset : flipBit (send_frame cmd P) (2 + j) k =
        [0xAA, 0x55] ++ ((M.set j (M.getD j 0 ^^^ 2 ^ k)) ++ [chk]) := by
      unfold flipBit
      rw [hget, hframe]
      have h1 : ([0xAA, 0x55] ++ (M ++ [chk])).set (2 + j)
          (M.getD j 0 ^^^ 2 ^ k) =
          [0xAA, 0x55] ++ ((M ++ [chk]).set j (M.getD j 0 ^^^ 2 ^ k)) := by
        simp [List.set, Nat.add_comm 2 j]
      rw [h1, List.set_append_left _ _ (by omega)]
    have hd1 : (([0xAA, 0x55] : List Nat) ++
        ((M.set j (M.getD j 0 ^^^ 2 ^ k)) ++ [chk])).drop 2 =
        (M.set j (M.getD j 0 ^^^ 2 ^ k)) ++ [chk] := by simp
    have hd0 : (([0xAA, 0x55] : List Nat) ++ (M ++ [chk])).drop 2 =
        M ++ [chk] := by simp
    have hcc : computedChecksum (flipBit (send_frame cmd P) (2 + j) k) =
        calc_checksum M ^^^ 2 ^ k := by
      unfold computedChecksum
      rw [hset, hd1, List.dropLast_concat]
      exact calc_checksum_set M j (2 ^ k) hjM
    have hcc0 : computedChecksum (send_frame cmd P) = calc_checksum M := by
      unfold computedChecksum
      rw [hframe, hd0, List.dropLast_concat]
    rw [hcc, hcc0]
    intro hcontra
    have h2k : (2 : Nat) ^ k = 0 := by
      calc (2 : Nat) ^ k
          = calc_checksum M ^^^ (calc_checksum M ^^^ 2 ^ k) := by
            rw [← Nat.xor_assoc, Nat.xor_self, Nat.zero_xor]
        _ = calc_checksum M ^^^ calc_checksum M := by rw [hcontra]
        _ = 0 := Nat.xor_self _
    exact pow_ne_zero k (by norm_num) h2k
  · intro s
    rw [calc_checksum_append, Nat.xor_self]

theorem c3_checksum_sensitivity_witness :
    computedChecksum (flipBit (send_frame 0x06 []) 2 0) ≠
      computedChecksum (send_frame 0x06 []) ∧
    calc_checksum ([3, 7] ++ [3, 7]) = 0 :=
  ⟨(c3_checksum_sensitivity 0x06 [] 2 0 (by decide) (by decide)).1,
   (c3_checksum_sensitivity 0x06 [] 2 0 (by decide) (by decide)).2 [3, 7]⟩

/-! ## Helper lemmas about `getD` and `find_header` -/

theorem getD_eq_headD_drop (l : List Nat) (n d : Nat) :
    l.getD n d = (l.drop n).headD d := by
  induction l generalizing n with
  | nil => simp
  | cons a t ih =>
    cases n with
    | zero => simp
    | succ m => simpa using ih m

theorem find_header_some (B : List Nat) (idx : Nat)
    (h : find_header B = some idx) :
    idx + 2 ≤ B.length ∧ B.drop idx = 0xAA :: 0x55 :: B.drop (idx + 2) := by
  induction B generalizing idx with
  | nil => simp [find_header] at h
  | cons a t ih =>
    cases t with
    | nil => simp [find_header] at h
    | cons b t' =>
      rw [find_header] at h
      by_cases hab : a = 0xAA ∧ b = 0x55
      · rw [if_pos hab] at h
        obtain ⟨rfl⟩ : idx = 0 := by simpa using h.symm
        simp [hab.1, hab.2]
      · rw [if_neg hab] at h
        obtain ⟨j, hj, rfl⟩ : ∃ j, find_header (b :: t') = some j ∧ j + 1 = idx := by
          rcases Option.map_eq_some'.mp h with ⟨j, hj1, hj2⟩
          exact ⟨j, hj1, hj2⟩
        obtain ⟨hle, hdrop⟩ := ih j hj
        refine ⟨by simpa using Nat.succ_le_succ hle, ?_⟩
        simpa [List.drop_succ_cons] using hdrop

theorem find_header_none (B : List Nat)
    (H : ∀ i, ¬ (B.getD i 0 = 0xAA ∧ B.getD (i + 1) 0 = 0x55)) :
    find_header B = none := by
  induction B with
  | nil => rfl
  | cons a t ih =>
    cases t with
    | nil => rfl
    | cons b t' =>
      rw [find_header, if_neg (by simpa using H 0)]
      rw [ih (fun i => by simpa using H (i + 1))]
      rfl

/-! ## Claim theorem: C5 -/

/-- C5: For every input buffer containing no occurrence of the 2-byte header
marker `0xAA 0x55`, `parse_frame` reports no frame and the remaining buffer
is exactly the final byte of the input (and the empty sequence when the input
is empty). -/
theorem c5_no_header (B : List Nat)
    (H : ∀ i, ¬ (B.getD i 0 = 0xAA ∧ B.getD (i + 1) 0 = 0x55)) :
    parse_frame B = (none, B.drop (B.length - 1)) ∧
    (B = [] → B.drop (B.length - 1) = []) ∧
    (∀ l x, B = l ++ [x] → B.drop (B.length - 1) = [x]) := by
  refine ⟨?_, ?_, ?_⟩
  · rw [parse_frame, find_header_none B H]
  · intro h; subst h; rfl
  · intro l x h
    subst h
    have : (l ++ [x]).length - 1 = l.length := by simp
    rw [this, List.drop_left]

theorem c5_no_header_witness :
    parse_frame [0x01, 0x02] = (none, [0x02]) ∧
    (([0x01, 0x02] : List Nat) = [] → ([0x01, 0x02] : List Nat).drop 1 = []) ∧
    ([0x01, 0x02] : List Nat).drop 1 = [0x02] := by
  have H : ∀ i, ¬ (([0x01, 0x02] : List Nat).getD i 0 = 0xAA ∧
      ([0x01, 0x02] : List Nat).getD (i + 1) 0 = 0x55) := by
    intro i hcontra
    obtain ⟨h1, h2⟩ := hcontra
    match i with
    | 0 => exact absurd h1 (by decide)
    | 1 => exact absurd h1 (by decide)
    | (n + 2) =>
      rw [getD_eq_headD_drop] at h1
      simp at h1
  exact ⟨(c5_no_header [0x01, 0x02] H).1,
    (c5_no_header [0x01, 0x02] H).2.1,
    (c5_no_header [0x01, 0x02] H).2.2 [0x01] 0x02 rfl⟩

/-! ## Helper lemmas for positional access into appended lists -/

theorem getD_append_len (l₁ l₂ : List Nat) (d : Nat) :
    (l₁ ++ l₂).getD l₁.length d = l₂.getD 0 d := by
  induction l₁ with
  | nil => rfl
  | cons a t ih => simpa using ih

/-! ## Claim theorem: C1 -/

/-- C1: For every command byte `cmd` and payload `P` with
`0 ≤ len(P) ≤ 65535`, feeding the bytes of `encode(cmd, P)` followed by
arbitrary trailing garbage `S` to the stream parser yields exactly the frame
`(cmd, P)` and returns exactly `S` as the remaining buffer; for `S = []` this
is the round-trip `decode(encode(cmd, P)) = (cmd, P)`. -/
theorem c1_roundtrip (cmd : Nat) (P S : List Nat) (hcmd : cmd < 256)
    (hP : ∀ b ∈ P, b < 256) (hlen : P.length ≤ 65535) :
    parse_frame (send_frame cmd P ++ S) = (some (cmd, P), S) := by
  set L := P.length with hLdef
  set lo := L % 256 with hlo
  set hi := L / 256 % 256 with hhi
  set chk := calc_checksum ([cmd, lo, hi] ++ P) with hchk
  have hexp : send_frame cmd P ++ S =
      0xAA :: 0x55 :: cmd :: lo :: hi :: (P ++ chk :: S) := by
    simp [send_frame, hchk]
  rw [hexp]
  set E := 0xAA :: 0x55 :: cmd :: lo :: hi :: (P ++ chk :: S) with hE
  have hfh : find_header E = some 0 := by rw [hE, find_header]; simp
  have hElen : E.length = 6 + L + S.length := by rw [hE]; simp [hLdef]; omega
  have hg2 : E.getD 2 0 = cmd := by rw [hE]; rfl
  have hg3 : E.getD 3 0 = lo := by rw [hE]; rfl
  have hg4 : E.getD 4 0 = hi := by rw [hE]; rfl
  have hlen_eq : lo + 256 * hi = L := by
    rw [hlo, hhi]
    have hdiv : L / 256 < 256 := by
      rw [Nat.div_lt_iff_lt_mul (by norm_num)]
      omega
    rw [Nat.mod_eq_of_lt hdiv]
    exact Nat.mod_add_div L 256
  have hdata : (E.drop 5).take L = P := by
    rw [hE]
    have hd5 : (0xAA :: 0x55 :: cmd :: lo :: hi :: (P ++ chk :: S)).drop 5 =
        P ++ chk :: S := rfl
    rw [hd5, hLdef, List.take_left]
  have hfive : E = ([0xAA, 0x55, cmd, lo, hi] ++ P) ++ chk :: S := by
    rw [hE]; simp
  have hchkbyte : E.getD (5 + L) 0 = chk := by
    rw [hfive]
    have h5 : ([0xAA, 0x55, cmd, lo, hi] ++ P).length = 5 + L := by
      simp [hLdef]; omega
    rw [← h5, getD_append_len]
    rfl
  have hregion : (E.drop 2).take (3 + L) = [cmd, lo, hi] ++ P := by
    rw [hE]
    have hd2 : (0xAA :: 0x55 :: cmd :: lo :: hi :: (P ++ chk :: S)).drop 2 =
        ([cmd, lo, hi] ++ P) ++ chk :: S := by simp
    rw [hd2]
    have h3 : ([cmd, lo, hi] ++ P).length = 3 + L := by simp [hLdef]; omega
    rw [← h3, List.take_left]
  have hdropall : E.drop (5 + L + 1) = S := by
    have hEsplit : E = ([0xAA, 0x55, cmd, lo, hi] ++ P ++ [chk]) ++ S := by
      rw [hE]; simp
    have hlen6 : ([0xAA, 0x55, cmd, lo, hi] ++ P ++ [chk]).length = 5 + L + 1 := by
      simp [hLdef]; omega
    rw [hEsplit, ← hlen6, List.drop_left]
  have hc1 : ¬ E.length < 6 := by omega
  simp only [parse_frame, hfh, List.drop_zero]
  rw [if_neg hc1, hg2, hg3, hg4, hlen_eq]
  have hc2 : ¬ E.length < 5 + L + 1 := by omega
  rw [if_neg hc2, hchkbyte, hregion, ← hchk]
  rw [if_neg (fun h => h rfl), hdata, hdropall]

theorem c1_roundtrip_witness :
    parse_frame (send_frame 0x06 [] ++ [0x99]) = (some (0x06, []), [0x99]) :=
  c1_roundtrip 0x06 [] [0x99] (by decide) (by decide) (by decide)

/-! ## Claim theorem: C2 -/

/-- C2: When the parser finds the header at position `idx` and a complete
frame sits there whose trailing checksum byte does not equal the XOR of
command, length bytes and payload, `parse_frame` reports no frame and
advances the buffer by exactly the 2 header bytes just consumed (relative to
the position where the header was found); the remainder is strictly shorter
than the input, and every later position of the buffer survives into the
remainder, so a later valid frame is still found by subsequent calls instead
of the parser stalling. -/
theorem c2_bad_checksum_resync (B : List Nat) (idx : Nat)
    (hfind : find_header B = some idx)
    (h6 : ¬ (B.drop idx).length < 6)
    (hcomp : ¬ (B.drop idx).length <
      5 + ((B.drop idx).getD 3 0 + 256 * (B.drop idx).getD 4 0) + 1)
    (hbad : (B.drop idx).getD
        (5 + ((B.drop idx).getD 3 0 + 256 * (B.drop idx).getD 4 0)) 0 ≠
      calc_checksum (((B.drop idx).drop 2).take
        (3 + ((B.drop idx).getD 3 0 + 256 * (B.drop idx).getD 4 0)))) :
    parse_frame B = (none, B.drop (idx + 2)) ∧
    (B.drop (idx + 2)).length < B.length ∧
    ∀ j, idx + 2 ≤ j → (B.drop (idx + 2)).drop (j - (idx + 2)) = B.drop j := by
  refine ⟨?_, ?_, ?_⟩
  · simp only [parse_frame, hfind]
    rw [if_neg h6, if_neg hcomp, if_pos hbad, List.drop_drop]
  · simp only [List.length_drop] at h6 ⊢
    omega
  · intro j hj
    rw [List.drop_drop]
    congr 1
    omega

theorem c2_bad_checksum_resync_witness :
    parse_frame [0xAA, 0x55, 0x06, 0x00, 0x00, 0x07] =
      (none, [0x06, 0x00, 0x00, 0x07]) ∧
    ([0x06, 0x00, 0x00, 0x07] : List Nat).length < 6 ∧
    ([0x06, 0x00, 0x00, 0x07] : List Nat).drop 2 = [0x00, 0x07] := by
  have hthm := c2_bad_checksum_resync [0xAA, 0x55, 0x06, 0x00, 0x00, 0x07] 0
    (by decide) (by decide) (by decide) (by decide)
  exact ⟨hthm.1, hthm.2.1, hthm.2.2 4 (by decide)⟩

/-! ## Branch analysis of `parse_frame` -/

theorem parse_frame_suffix (B : List Nat) :
    ∃ k, (parse_frame B).2 = B.drop k := by
  cases hfh : find_header B with
  | none =>
    refine ⟨B.length - 1, ?_⟩
    simp only [parse_frame, hfh]
  | some idx =>
    simp only [parse_frame, hfh]
    by_cases h1 : (B.drop idx).length < 6
    · exact ⟨idx, by rw [if_pos h1]⟩
    · rw [if_neg h1]
      by_cases h2 : (B.drop idx).length <
          5 + ((B.drop idx).getD 3 0 + 256 * (B.drop idx).getD 4 0) + 1
      · exact ⟨idx, by rw [if_pos h2]⟩
      · rw [if_neg h2]
        by_cases h3 : (B.drop idx).getD
            (5 + ((B.drop idx).getD 3 0 + 256 * (B.drop idx).getD 4 0)) 0 ≠
            calc_checksum (((B.drop idx).drop 2).take
              (3 + ((B.drop idx).getD 3 0 + 256 * (B.drop idx).getD 4 0)))
        · exact ⟨idx + 2, by rw [if_pos h3, List.drop_drop]⟩
        · refine ⟨idx + (5 + ((B.drop idx).getD 3 0 + 256 * (B.drop idx).getD 4 0) + 1),
            ?_⟩
          rw [if_neg h3]
          simp [List.drop_drop]

theorem parse_frame_progress (B : List Nat) (cmd : Nat) (data R : List Nat)
    (h : parse_frame B = (some (cmd, data), R)) :
    R.length + 6 ≤ B.length := by
  cases hfh : find_header B with
  | none =>
    rw [parse_frame, hfh] at h
    simp at h
  | some idx =>
    simp only [parse_frame, hfh] at h
    by_cases h1 : (B.drop idx).length < 6
    · rw [if_pos h1] at h; simp at h
    · rw [if_neg h1] at h
      by_cases h2 : (B.drop idx).length <
          5 + ((B.drop idx).getD 3 0 + 256 * (B.drop idx).getD 4 0) + 1
      · rw [if_pos h2] at h; simp at h
      · rw [if_neg h2] at h
        by_cases h3 : (B.drop idx).getD
            (5 + ((B.drop idx).getD 3 0 + 256 * (B.drop idx).getD 4 0)) 0 ≠
            calc_checksum (((B.drop idx).drop 2).take
              (3 + ((B.drop idx).getD 3 0 + 256 * (B.drop idx).getD 4 0)))
        · rw [if_pos h3] at h; simp at h
        · rw [if_neg h3] at h
          have hR : R = (B.drop idx).drop
              (5 + ((B.drop idx).getD 3 0 + 256 * (B.drop idx).getD 4 0) + 1) := by
            have := congrArg Prod.snd h
            simpa using this.symm
          rw [hR]
          simp only [List.drop_drop, List.length_drop] at h2 ⊢
          omega

/-- A frame yielded by `parse_frame` on a genuine byte buffer is an exact
`send_frame` encoding occurring contiguously in the buffer, and the returned
remainder is everything after it. -/
theorem parse_frame_some_eq (B : List Nat) (cmd : Nat) (data R : List Nat)
    (hB : ∀ b ∈ B, b < 256) (h : parse_frame B = (some (cmd, data), R)) :
    ∃ j, B.drop j = send_frame cmd data ++ R := by
  cases hfh : find_header B with
  | none => rw [parse_frame, hfh] at h; simp at h
  | some idx =>
    obtain ⟨hidx2, hdropE⟩ := find_header_some B idx hfh
    simp only [parse_frame, hfh] at h
    by_cases h1 : (B.drop idx).length < 6
    · rw [if_pos h1] at h; simp at h
    · rw [if_neg h1] at h
      by_cases h2 : (B.drop idx).length <
          5 + ((B.drop idx).getD 3 0 + 256 * (B.drop idx).getD 4 0) + 1
      · rw [if_pos h2] at h; simp at h
      · rw [if_neg h2] at h
        by_cases h3 : (B.drop idx).getD
            (5 + ((B.drop idx).getD 3 0 + 256 * (B.drop idx).getD 4 0)) 0 ≠
            calc_checksum (((B.drop idx).drop 2).take
              (3 + ((B.drop idx).getD 3 0 + 256 * (B.drop idx).getD 4 0)))
        · rw [if_pos h3] at h; simp at h
        · rw [if_neg h3] at h
          push_neg at h3
          refine ⟨idx, ?_⟩
          -- expose the first five bytes after the header position
          have hr2len : 4 ≤ (B.drop (idx + 2)).length := by
            rw [hdropE] at h1
            simp only [List.length_cons] at h1
            omega
          obtain ⟨c2, r3, e3⟩ : ∃ c r, B.drop (idx + 2) = c :: r := by
            cases hx : B.drop (idx + 2) with
            | nil => rw [hx] at hr2len; simp at hr2len
            | cons c r => exact ⟨c, r, rfl⟩
          obtain ⟨c3, r4, e4⟩ : ∃ c r, r3 = c :: r := by
            cases hx : r3 with
            | nil => rw [e3, hx] at hr2len; simp at hr2len
            | cons c r => exact ⟨c, r, rfl⟩
          obtain ⟨c4, r5, e5⟩ : ∃ c r, r4 = c :: r := by
            cases hx : r4 with
            | nil => rw [e3, e4, hx] at hr2len; simp at hr2len
            | cons c r => exact ⟨c, r, rfl⟩
          have hbufE : B.drop idx = 0xAA :: 0x55 :: c2 :: c3 :: c4 :: r5 := by
            rw [hdropE, e3, e4, e5]
          have hg2 : (0xAA :: 0x55 :: c2 :: c3 :: c4 :: r5).getD 2 0 = c2 := rfl
          have hg3 : (0xAA :: 0x55 :: c2 :: c3 :: c4 :: r5).getD 3 0 = c3 := rfl
          have hg4 : (0xAA :: 0x55 :: c2 :: c3 :: c4 :: r5).getD 4 0 = c4 := rfl
          have hd5c : List.drop 5 ((0xAA : Nat) :: 0x55 :: c2 :: c3 :: c4 :: r5) =
            r5 := rfl
          rw [hbufE] at h h2 h3
          simp only [hg2, hg3, hg4, hd5c] at h h2 h3
          set len := c3 + 256 * c4 with hlendef
          -- normalize the positional accesses in h and h3
          have hdrops : ∀ n : Nat,
              (0xAA :: 0x55 :: c2 :: c3 :: c4 :: r5).drop (n + 5) = r5.drop n :=
            fun n => rfl
          rw [show 5 + len + 1 = (len + 1) + 5 from by omega, hdrops] at h
          rw [show 5 + len = len + 5 from by omega] at h3
          rw [getD_eq_headD_drop, hdrops] at h3
          have htake : (((0xAA : Nat) :: 0x55 :: c2 :: c3 :: c4 :: r5).drop 2).take
              (3 + len) = c2 :: c3 :: c4 :: r5.take len := by
            rw [show (3 + len) = len + 3 from by omega]
            rfl
          rw [htake] at h3
          -- split h into its components
          rw [Prod.mk.injEq, Option.some.injEq, Prod.mk.injEq] at h
          obtain ⟨⟨hc, hd⟩, hr⟩ := h
          -- payload region of r5
          have hlenr5 : len + 1 ≤ r5.length := by
            simp only [List.length_cons] at h2
            omega
          obtain ⟨e, tail, he⟩ : ∃ e tail, r5.drop len = e :: tail := by
            cases hx : r5.drop len with
            | nil =>
              have := congrArg List.length hx
              simp only [List.length_drop, List.length_nil] at this
              omega
            | cons e tail => exact ⟨e, tail, rfl⟩
          have hr5split : r5 = r5.take len ++ e :: tail := by
            conv_lhs => rw [← List.take_append_drop len r5]
            rw [he]
          have hR : R = tail := by
            rw [← hr, ← List.drop_drop, he]
            rfl
          have he_val : e = calc_checksum (c2 :: c3 :: c4 :: r5.take len) := by
            rw [he] at h3
            simpa using h3
          have hdlen : (r5.take len).length = len := by
            simp only [List.length_take]
            omega
          -- byte ranges of the two length bytes
          have hc3 : c3 < 256 := by
            refine hB c3 (List.drop_subset idx B ?_)
            rw [hbufE]; simp
          have hc4 : c4 < 256 := by
            refine hB c4 (List.drop_subset idx B ?_)
            rw [hbufE]; simp
          have hlo : len % 256 = c3 := by
            rw [hlendef, Nat.add_mul_mod_self_left, Nat.mod_eq_of_lt hc3]
          have hhi : len / 256 % 256 = c4 := by
            rw [hlendef, Nat.add_mul_div_left _ _ (by norm_num : 0 < 256),
              Nat.div_eq_of_lt hc3]
            simpa using Nat.mod_eq_of_lt hc4
          -- assemble
          subst hc hd hR
          rw [hbufE]
          show 0xAA :: 0x55 :: c2 :: c3 :: c4 :: r5 =
            send_frame c2 (r5.take len) ++ R
          simp only [send_frame, hdlen, hlo, hhi, List.drop_succ_cons,
            List.drop_zero, ← he_val]
          conv_lhs => rw [hr5split]
          simp
          exact he_val

/-- The trailing byte of every encoded frame is the XOR-reduction of command,
length bytes and payload. -/
theorem send_frame_checksum_byte (cmd : Nat) (data : List Nat) :
    (send_frame cmd data).getD (5 + data.length) 0 =
      calc_checksum (((send_frame cmd data).drop 2).take (3 + data.length)) := by
  set L := data.length with hL
  set lo := L % 256 with hlo
  set hi := L / 256 % 256 with hhi
  set chk := calc_checksum ([cmd, lo, hi] ++ data) with hchk
  have hsf : send_frame cmd data = ([0xAA, 0x55, cmd, lo, hi] ++ data) ++ [chk] := by
    simp [send_frame, hchk]
  have h5 : ([0xAA, 0x55, cmd, lo, hi] ++ data).length = 5 + L := by
    simp [hL]; omega
  have h3 : ([cmd, lo, hi] ++ data).length = 3 + L := by
    simp [hL]; omega
  rw [hsf, ← h5, getD_append_len]
  have hdrop2 : (([0xAA, 0x55, cmd, lo, hi] ++ data) ++ [chk]).drop 2 =
      ([cmd, lo, hi] ++ data) ++ [chk] := by simp
  rw [hdrop2, ← h3, List.take_left]
  rfl

/-- Every frame collected by the drain loop on a genuine byte buffer occurs
in the buffer as an exact `send_frame` encoding. -/
theorem drain_mem_decomp (fuel : Nat) : ∀ B : List Nat, (∀ b ∈ B, b < 256) →
    ∀ cmd data, (cmd, data) ∈ (drain fuel B).1 →
    ∃ j T, B.drop j = send_frame cmd data ++ T := by
  induction fuel with
  | zero =>
    intro B hB cmd data hmem
    simp [drain] at hmem
  | succ f ih =>
    intro B hB cmd data hmem
    rw [drain] at hmem
    cases hp : parse_frame B with
    | mk res rest =>
      rw [hp] at hmem
      cases res with
      | none => simp at hmem
      | some fr =>
        simp only [List.mem_cons] at hmem
        rcases hmem with heq | hmem
        · obtain rfl : fr = (cmd, data) := heq.symm
          obtain ⟨j, hj⟩ := parse_frame_some_eq B cmd data rest hB hp
          exact ⟨j, rest, hj⟩
        · obtain ⟨k, hk⟩ := parse_frame_suffix B
          rw [hp] at hk
          have hkr : rest = B.drop k := by simpa using hk
          have hrest : ∀ b ∈ rest, b < 256 := by
            intro b hb
            refine hB b ?_
            rw [hkr] at hb
            exact List.drop_subset k B hb
          obtain ⟨j, T, hj⟩ := ih rest hrest cmd data hmem
          refine ⟨k + j, T, ?_⟩
          rw [← List.drop_drop, ← hkr]
          exact hj

/-! ## Claim theorem: C6 -/

/-- C6: A decoded `(command, payload)` pair is dispatched by the receive loop
only when it comes from a frame occurring in the inbound stream whose
trailing checksum byte equals the XOR-reduction of command, length bytes and
payload: every dispatched pair is an exact `send_frame` encoding occurring
contiguously in the buffer, and the encoding's trailing byte is that
XOR-reduction — no frame with a checksum mismatch is ever dispatched. -/
theorem c6_only_valid_dispatched (B : List Nat) (hB : ∀ b ∈ B, b < 256)
    (fuel cmd : Nat) (data : List Nat)
    (hmem : (cmd, data) ∈ (drain fuel B).1) :
    (∃ j T, B.drop j = send_frame cmd data ++ T) ∧
    (send_frame cmd data).getD (5 + data.length) 0 =
      calc_checksum (((send_frame cmd data).drop 2).take (3 + data.length)) :=
  ⟨drain_mem_decomp fuel B hB cmd data hmem, send_frame_checksum_byte cmd data⟩

theorem c6_only_valid_dispatched_witness :
    (∃ j T, (send_frame 0x06 []).drop j = send_frame 0x06 [] ++ T) ∧
    (send_frame 0x06 []).getD 5 0 =
      calc_checksum (((send_frame 0x06 []).drop 2).take 3) :=
  c6_only_valid_dispatched (send_frame 0x06 []) (by decide) 1 0x06 []
    (by decide)

/-- The drain loop stabilizes within `len(buffer)/6 + 1` iterations: any fuel
at least that bound gives the same result as exactly that bound. -/
theorem drain_stable_aux (n : Nat) : ∀ B : List Nat, B.length ≤ n →
    ∀ fuel, B.length / 6 + 1 ≤ fuel →
    drain fuel B = drain (B.length / 6 + 1) B := by
  induction n with
  | zero =>
    intro B hBn fuel hfuel
    obtain ⟨f, rfl⟩ : ∃ f, fuel = f + 1 := ⟨fuel - 1, by omega⟩
    obtain ⟨b, hb⟩ : ∃ b, B.length / 6 + 1 = b + 1 := ⟨B.length / 6, rfl⟩
    rw [hb, drain, drain]
    cases hp : parse_frame B with
    | mk res rest =>
      cases res with
      | none => rfl
      | some fr =>
        have hprog := parse_frame_progress B fr.1 fr.2 rest hp
        omega
  | succ m ih =>
    intro B hBn fuel hfuel
    obtain ⟨f, rfl⟩ : ∃ f, fuel = f + 1 := ⟨fuel - 1, by omega⟩
    obtain ⟨b, hb⟩ : ∃ b, B.length / 6 + 1 = b + 1 := ⟨B.length / 6, rfl⟩
    rw [hb, drain, drain]
    cases hp : parse_frame B with
    | mk res rest =>
      cases res with
      | none => rfl
      | some fr =>
        have hprog := parse_frame_progress B fr.1 fr.2 rest hp
        have hdiv : rest.length / 6 + 1 ≤ B.length / 6 := by
          have h1 : (rest.length + 6) / 6 ≤ B.length / 6 :=
            Nat.div_le_div_right hprog
          rwa [Nat.add_div_right _ (by norm_num)] at h1
        have e1 := ih rest (by omega) f (by omega)
        have e2 := ih rest (by omega) b (by omega)
        simp only [e1, e2]

/-! ## Claim theorem: C10 -/

/-- C10: For every input buffer, the remaining buffer returned by
`parse_frame` is a contiguous suffix of the input (a drop at some offset);
whenever a frame is yielded the remainder is at least 6 bytes shorter than
the input; hence the inner drain loop of the receive loop reaches its exit
within `len(buffer)/6 + 1` iterations: any fuel at least that bound yields
the same result as that bound. -/
theorem c10_termination (B : List Nat) :
    (∃ k, (parse_frame B).2 = B.drop k) ∧
    (∀ cmd data R, parse_frame B = (some (cmd, data), R) →
      R.length + 6 ≤ B.length) ∧
    (∀ fuel, B.length / 6 + 1 ≤ fuel →
      drain fuel B = drain (B.length / 6 + 1) B) :=
  ⟨parse_frame_suffix B,
   fun cmd data R h => parse_frame_progress B cmd data R h,
   fun fuel hf => drain_stable_aux B.length B le_rfl fuel hf⟩

theorem c10_termination_witness :
    (∃ k, (parse_frame (send_frame 0x06 [])).2 = (send_frame 0x06 []).drop k) ∧
    ([] : List Nat).length + 6 ≤ (send_frame 0x06 []).length ∧
    drain 2 (send_frame 0x06 []) =
      drain ((send_frame 0x06 []).length / 6 + 1) (send_frame 0x06 []) :=
  ⟨(c10_termination (send_frame 0x06 [])).1,
   (c10_termination (send_frame 0x06 [])).2.1 0x06 [] [] (by decide),
   (c10_termination (send_frame 0x06 [])).2.2 2 (by decide)⟩

/-! ## Helper lemmas about `chunks` and the play frame sequence -/

theorem chunks_nil (size : Nat) : chunks size [] = [] := by
  rw [chunks]

theorem chunks_cons_pos (size : Nat) (hs : 1 ≤ size) (bs : List Nat)
    (hne : bs ≠ []) :
    chunks size bs = bs.take size :: chunks size (bs.drop size) := by
  cases bs with
  | nil => exact absurd rfl hne
  | cons b t =>
    rw [chunks]
    congr 2
    cases size with
    | zero => omega
    | succ s => simp

theorem chunks_length_aux (n : Nat) : ∀ size, 1 ≤ size → ∀ bs : List Nat,
    bs.length ≤ n →
    (chunks size bs).length = (bs.length + size - 1) / size := by
  induction n with
  | zero =>
    intro size hs bs hb
    have hnil : bs = [] := List.eq_nil_of_length_eq_zero (by omega)
    subst hnil
    simp [chunks_nil, Nat.div_eq_of_lt (by omega : size - 1 < size)]
  | succ m ih =>
    intro size hs bs hb
    cases bs with
    | nil => simp [chunks_nil, Nat.div_eq_of_lt (by omega : size - 1 < size)]
    | cons b t =>
      simp only [List.length_cons] at hb
      rw [chunks, List.length_cons,
        ih size hs (t.drop (size - 1)) (by simp only [List.length_drop]; omega)]
      simp only [List.length_drop, List.length_cons]
      rcases le_or_lt (t.length + 1) size with hc | hc
      · have h1 : t.length - (size - 1) = 0 := by omega
        rw [h1, Nat.div_eq_of_lt (by omega : 0 + size - 1 < size)]
        rw [show t.length + 1 + size - 1 = t.length + size from by omega]
        rw [Nat.add_div_right _ (by omega : 0 < size),
          Nat.div_eq_of_lt (by omega : t.length < size)]
      · rw [show t.length - (size - 1) + size - 1 = t.length from by omega]
        rw [show t.length + 1 + size - 1 = t.length + size from by omega]
        rw [Nat.add_div_right _ (by omega : 0 < size)]

theorem filter_audio_map (cs : List (List Nat)) :
    (cs.map (fun c => (CMD_AUDIO_DATA, c))).filter
        (fun f => f.1 == CMD_AUDIO_DATA) =
      cs.map (fun c => (CMD_AUDIO_DATA, c)) := by
  induction cs with
  | nil => rfl
  | cons c t ih => simp [ih]

theorem play_frames_filter (fmt : Nat) (frames : List Nat) :
    (play_frames fmt frames).filter (fun f => f.1 == CMD_AUDIO_DATA) =
      (chunks (if fmt = AUDIO_FORMAT_MP3 then 1024 else 512) frames).map
        (fun c => (CMD_AUDIO_DATA, c)) := by
  simp only [play_frames, List.filter_cons, List.filter_append, filter_audio_map]
  norm_num [CMD_SET_FORMAT, CMD_START_PLAY, CMD_STOP_PLAY, CMD_AUDIO_DATA]

/-! ## Claim theorem: C7 -/

/-- C7: The play operation splits the source audio bytes into fixed-size
chunks — 512 bytes for PCM, 1024 bytes for MP3 — and sends one audio-data
frame per chunk: a 2049-byte PCM source is sent as exactly 5 audio-data
frames with payload sizes 512, 512, 512, 512, 1, and an MP3 source of n
bytes is sent as exactly `ceil(n/1024) = (n + 1023) / 1024` frames. -/
theorem c7_play_chunking (pcm : List Nat) (hpcm : pcm.length = 2049) :
    ((play_frames AUDIO_FORMAT_PCM pcm).filter
        (fun f => f.1 == CMD_AUDIO_DATA)).map (fun f => f.2.length) =
      [512, 512, 512, 512, 1] ∧
    ∀ mp3 : List Nat,
      ((play_frames AUDIO_FORMAT_MP3 mp3).filter
          (fun f => f.1 == CMD_AUDIO_DATA)).length =
        (mp3.length + 1023) / 1024 := by
  constructor
  · rw [play_frames_filter]
    norm_num [AUDIO_FORMAT_PCM, AUDIO_FORMAT_MP3]
    have h0 : pcm ≠ [] := by
      intro hcon; rw [hcon] at hpcm; simp at hpcm
    rw [chunks_cons_pos 512 (by norm_num) pcm h0]
    have hl1 : (pcm.drop 512).length = 1537 := by simp [hpcm]
    have h1 : pcm.drop 512 ≠ [] := by
      intro hcon; rw [hcon] at hl1; simp at hl1
    rw [chunks_cons_pos 512 (by norm_num) _ h1]
    have hl2 : ((pcm.drop 512).drop 512).length = 1025 := by simp [hpcm]
    have h2 : (pcm.drop 512).drop 512 ≠ [] := by
      intro hcon; rw [hcon] at hl2; simp at hl2
    rw [chunks_cons_pos 512 (by norm_num) _ h2]
    have hl3 : (((pcm.drop 512).drop 512).drop 512).length = 513 := by
      simp [hpcm]
    have h3 : ((pcm.drop 512).drop 512).drop 512 ≠ [] := by
      intro hcon; rw [hcon] at hl3; simp at hl3
    rw [chunks_cons_pos 512 (by norm_num) _ h3]
    have hl4 : ((((pcm.drop 512).drop 512).drop 512).drop 512).length = 1 := by
      simp [hpcm]
    have h4 : (((pcm.drop 512).drop 512).drop 512).drop 512 ≠ [] := by
      intro hcon; rw [hcon] at hl4; simp at hl4
    rw [chunks_cons_pos 512 (by norm_num) _ h4]
    have hl5 : (((((pcm.drop 512).drop 512).drop 512).drop 512).drop 512).length
        = 0 := by simp [hpcm]
    rw [List.eq_nil_of_length_eq_zero hl5, chunks_nil]
    simp [List.length_take, hpcm]
  · intro mp3
    rw [play_frames_filter]
    norm_num [AUDIO_FORMAT_MP3]
    rw [chunks_length_aux mp3.length 1024 (by norm_num) mp3 le_rfl]
    congr 1

theorem c7_play_chunking_witness :
    ((play_frames AUDIO_FORMAT_PCM (List.replicate 2049 0)).filter
        (fun f => f.1 == CMD_AUDIO_DATA)).map (fun f => f.2.length) =
      [512, 512, 512, 512, 1] ∧
    ((play_frames AUDIO_FORMAT_MP3 (List.replicate 100 0)).filter
        (fun f => f.1 == CMD_AUDIO_DATA)).length =
      ((List.replicate (100 : Nat) (0 : Nat)).length + 1023) / 1024 :=
  ⟨(c7_play_chunking (List.replicate 2049 0)
      (by rw [List.length_replicate])).1,
   (c7_play_chunking (List.replicate 2049 0)
      (by rw [List.length_replicate])).2 (List.replicate 100 0)⟩

/-- If no audio-data frame is ever dispatched, the accumulator stays empty. -/
theorem accumulate_nil_of_no_audio : ∀ fs : List (Nat × List Nat),
    (∀ f ∈ fs, f.1 ≠ CMD_AUDIO_DATA) → accumulate fs = [] := by
  intro fs
  induction fs with
  | nil => intro _; rfl
  | cons f t ih =>
    intro h
    have hf : f.1 ≠ CMD_AUDIO_DATA := h f (List.mem_cons_self f t)
    simp only [accumulate, List.foldl_cons, if_neg hf]
    exact ih (fun g hg => h g (List.mem_cons_of_mem f hg))

/-! ## Claim theorem: C8 -/

/-- C8: A record operation during which zero audio-data frames are received
(the accumulator is empty at stop) produces no WAV output and reports
"no data"; the WAV writer is invoked only when the accumulator is non-empty,
and then with the fixed parameters 8000 Hz, 16-bit, mono. -/
theorem c8_record_no_data :
    finish_record [] = RecordOutcome.noData ∧
    (∀ fs : List (Nat × List Nat), (∀ f ∈ fs, f.1 ≠ CMD_AUDIO_DATA) →
      finish_record (accumulate fs) = RecordOutcome.noData) ∧
    (∀ d r b c d', finish_record d = RecordOutcome.saved r b c d' →
      d ≠ [] ∧ r = 8000 ∧ b = 16 ∧ c = 1 ∧ d' = d) := by
  refine ⟨by simp [finish_record], ?_, ?_⟩
  · intro fs hfs
    rw [accumulate_nil_of_no_audio fs hfs]
    simp [finish_record]
  · intro d r b c d' hd
    unfold finish_record at hd
    by_cases hne : d ≠ []
    · rw [if_pos hne] at hd
      injection hd with h1 h2 h3 h4
      exact ⟨hne, by rw [← h1]; rfl, by rw [← h2]; rfl, by rw [← h3]; rfl,
        h4.symm⟩
    · rw [if_neg hne] at hd
      exact absurd hd (by simp)

theorem c8_record_no_data_witness :
    finish_record (accumulate [(7, [9])]) = RecordOutcome.noData ∧
    (([1] : List Nat) ≠ [] ∧ (8000 : Nat) = 8000 ∧ (16 : Nat) = 16 ∧
      (1 : Nat) = 1 ∧ ([1] : List Nat) = [1]) :=
  ⟨c8_record_no_data.2.1 [(7, [9])] (by decide),
   c8_record_no_data.2.2 [1] 8000 16 1 [1] (by decide)⟩
